import Mathlib

/-!
Verification development for the yoga-recommender relevance-ranking engine
(`src/App.jsx`).  The tokenizer, scoring engine and ranking pipeline are
embedded shallowly: strings are lists of characters, the JavaScript regular
expression `/(\d{1,2})\s*min/` is modelled by an explicit leftmost-match
search, and `Array.prototype.sort` (specified to be stable) is modelled by a
stable insertion sort keyed on the same comparator.
-/

/-- Strings are modelled as lists of characters. -/
abbrev Str := List Char

/-- JS `\s` character class (ECMAScript WhiteSpace plus LineTerminator),
by code point. -/
def isJsSpace (c : Char) : Bool :=
  c.toNat == 9 || c.toNat == 10 || c.toNat == 11 || c.toNat == 12 ||
  c.toNat == 13 || c.toNat == 32 || c.toNat == 160 || c.toNat == 0x1680 ||
  c.toNat == 0x2000 || c.toNat == 0x2001 || c.toNat == 0x2002 ||
  c.toNat == 0x2003 || c.toNat == 0x2004 || c.toNat == 0x2005 ||
  c.toNat == 0x2006 || c.toNat == 0x2007 || c.toNat == 0x2008 ||
  c.toNat == 0x2009 || c.toNat == 0x200A || c.toNat == 0x2028 ||
  c.toNat == 0x2029 || c.toNat == 0x202F || c.toNat == 0x205F ||
  c.toNat == 0x3000 || c.toNat == 0xFEFF

/-- The character class `[a-z0-9]` kept by the tokenizer's replacement step. -/
def isTokenChar (c : Char) : Bool :=
  (97 ≤ c.toNat && c.toNat ≤ 122) || (48 ≤ c.toNat && c.toNat ≤ 57)

/-- ASCII decimal digit, JS `\d`. -/
def isDigitChar (c : Char) : Bool :=
  48 ≤ c.toNat && c.toNat ≤ 57

/-- JS `String.prototype.toLowerCase`, restricted to the ASCII mapping
(`A`-`Z` to `a`-`z`); other case mappings are irrelevant here because every
non-`[a-z0-9\s]` character is replaced by a space right after lowering. -/
def jsToLower (c : Char) : Char :=
  if 65 ≤ c.toNat ∧ c.toNat ≤ 90 then Char.ofNat (c.toNat + 32) else c

/-- `replace(/[^a-z0-9\s]/g, " ")` acting on one character. -/
def replaceChar (c : Char) : Char :=
  if isTokenChar c || isJsSpace c then c else ' '

/-- Accumulator loop for `splitWs`: `acc` holds the reversed characters of
the token currently being read. -/
def splitWsAux : Str → Str → List Str
  | [], acc => if acc.isEmpty then [] else [acc.reverse]
  | c :: cs, acc =>
    if isJsSpace c then
      if acc.isEmpty then splitWsAux cs [] else acc.reverse :: splitWsAux cs []
    else splitWsAux cs (c :: acc)

/-- `split(/\s+/)` followed by `.filter(Boolean)`: the maximal runs of
non-whitespace characters. -/
def splitWs (l : Str) : List Str := splitWsAux l []

/-- `tokenize` from `App.jsx`: lower-case, replace every character outside
`[a-z0-9\s]` by a space, split on whitespace runs, drop empty tokens. -/
def tokenize (s : Str) : List Str :=
  splitWs ((s.map jsToLower).map replaceChar)

/-- The `KW` keyword table from `App.jsx`. -/
def KW.knees : List Str :=
  [("knee").data, ("knees").data, ("meniscus").data, ("acl").data, ("mcl").data]

def KW.back : List Str :=
  [("back").data, ("spine").data, ("sciatica").data, ("low").data, ("lumbar").data]

def KW.travel : List Str :=
  [("plane").data, ("flight").data, ("travel").data, ("road").data, ("jet").data, ("lag").data]

def KW.desk : List Str :=
  [("desk").data, ("sitting").data, ("chair").data, ("office").data]

def KW.stiff : List Str :=
  [("stiff").data, ("tight").data, ("sore").data, ("achy").data]

def KW.energy : List Str :=
  [("energize").data, ("energy").data, ("sweat").data, ("work").data, ("workout").data]

def KW.relax : List Str :=
  [("relax").data, ("recover").data, ("gentle").data, ("restore").data, ("recovery").data]

/-- `const has = (arr) => arr.some((w) => q.has(w))`. -/
def hasAny (q : List Str) (ws : List Str) : Bool :=
  ws.any fun w => q.contains w

/-- A catalog item (`video` in `App.jsx`); absent fields are modelled by
their JS defaults (`undefined` list fields read through `|| []`,
`lengthMin` as an `Option`). -/
structure Item where
  id : String
  title : String := ""
  lengthMin : Option Nat := none
  level : String := ""
  focuses : List String := []
  intents : List String := []
  vibe : List String := []
  equipment : List String := []
  contraindications : List String := []
deriving DecidableEq, Repr

/-- An item paired with its `_score`. -/
structure Scored where
  item : Item
  score : Int
deriving DecidableEq, Repr

/-- Tag-matching loop: for every tag, for every token of the tokenized tag
that is a member of the query token set, add weight `w`. -/
def tagScore (qT : List Str) (tags : List Str) (w : Nat) : Int :=
  (tags.map fun tag =>
    ((w : Int) * ((tokenize tag).countP fun t => qT.contains t))).sum

/-- Category-heuristic bonuses (travel +4, desk +3, energy +2,
relax-or-stiff +1). -/
def heurScore (q : List Str) : Int :=
  (if hasAny q KW.travel || (q.contains (("trip").data) && q.contains (("back").data))
    then 4 else 0)
  + (if hasAny q KW.desk then 3 else 0)
  + (if hasAny q KW.energy then 2 else 0)
  + (if hasAny q KW.relax || hasAny q KW.stiff then 1 else 0)

/-- Contraindication penalty. -/
def contraScore (q : List Str) (contra : List String) : Int :=
  if hasAny q KW.knees && contra.contains "acute knee pain" then -2 else 0

/-- `"min"` must follow optional whitespace: `\s*min` at the start of the
remainder (the greedy `\s*` has no choice because `m` is not whitespace). -/
def restMin (l : Str) : Bool :=
  (("min").data).isPrefixOf (l.dropWhile isJsSpace)

/-- Numeric value of an ASCII digit. -/
def digitVal (c : Char) : Nat := c.toNat - 48

/-- One attempt of `/(\d{1,2})\s*min/` anchored at the head of `l`,
with the backtracking priority of a greedy `\d{1,2}`: two digits first,
then one digit. -/
def tryAt : Str → Option Nat
  | [] => none
  | d1 :: rest1 =>
    if isDigitChar d1 then
      match rest1 with
      | d2 :: rest2 =>
        if isDigitChar d2 then
          if restMin rest2 then some (10 * digitVal d1 + digitVal d2)
          else if restMin rest1 then some (digitVal d1)
          else none
        else if restMin rest1 then some (digitVal d1)
        else none
      | [] => if restMin rest1 then some (digitVal d1) else none
    else none

/-- `query.match(/(\d{1,2})\s*min/)` with `parseInt` of the captured group:
leftmost successful attempt wins. -/
def jsMatchMin : Str → Option Nat
  | [] => none
  | c :: cs =>
    match tryAt (c :: cs) with
    | some w => some w
    | none => jsMatchMin cs

/-- `Math.round(d / 5)` for a natural `d` (round half up; halves cannot
occur since `2 * d + 5` is odd). -/
def roundHalfUpDiv5 (d : Nat) : Nat := (2 * d + 5) / 10

/-- Duration-preference rule: runs the regex on the raw query string and
adds the triangular bonus, substituting 0 for a missing `lengthMin`. -/
def durationScore (q : Str) (lengthMin : Option Nat) : Int :=
  match jsMatchMin q with
  | none => 0
  | some want =>
    max 0 (4 - min 4 ((roundHalfUpDiv5 (Nat.dist (lengthMin.getD 0) want) : Int)))

/-- Quick/short preference: `video.lengthMin <= 10` is false in JS when
`lengthMin` is `undefined`, so an absent length earns no bonus. -/
def quickScore (q : List Str) (lengthMin : Option Nat) : Int :=
  if q.contains (("quick").data) || q.contains (("short").data) then
    match lengthMin with
    | some l => if l ≤ 10 then 2 else 0
    | none => 0
  else 0

/-- `String.prototype.includes`: contiguous-substring test. -/
def strIncludes (hay : Str) (needle : Str) : Bool :=
  match hay with
  | [] => needle.isEmpty
  | c :: tl => needle.isPrefixOf (c :: tl) || strIncludes tl needle

/-- Transcript boosting: +1 per distinct query token occurring as a
substring of the transcript, capped at 6; skipped when the cache entry is
absent or the transcript text is falsy (empty). -/
def transcriptScore (q : List Str) (t? : Option String) : Int :=
  match t? with
  | none => 0
  | some t =>
    if t = "" then 0
    else (min ((q.dedup.countP fun tok => strIncludes t.data tok)) 6 : Nat)

/-- `keywordScore(query, video, transcriptCache)` from `App.jsx`: the sum of
the additive rules, in source order. -/
def keywordScore (query : Str) (video : Item) (transcriptCache : List (String × String)) : Int :=
  let qT := tokenize query
  tagScore qT (video.focuses.map String.data) 3
  + tagScore qT (video.intents.map String.data) 2
  + tagScore qT (video.vibe.map String.data) 1
  + heurScore qT
  + contraScore qT video.contraindications
  + durationScore query video.lengthMin
  + quickScore qT video.lengthMin
  + transcriptScore qT (transcriptCache.lookup video.id)

/-- `String.prototype.trim` over the JS whitespace class. -/
def jsTrim (s : Str) : Str :=
  ((s.dropWhile isJsSpace).reverse.dropWhile isJsSpace).reverse

/-- `tokens.join(" ")` / `Array.prototype.join(" ")`. -/
def joinSp : List Str → Str
  | [] => []
  | [t] => t
  | t :: r :: ts => t ++ ' ' :: joinSp (r :: ts)

/-- The concatenated haystack the list filter matches against:
`(focuses).concat(intents, vibe, equipment, level || [], title || "")`
joined by spaces (a falsy `level` contributes no element; `title || ""`
always contributes one). -/
def filterKey (v : Item) : Str :=
  joinSp ((v.focuses ++ v.intents ++ v.vibe ++ v.equipment
    ++ (if v.level = "" then [] else [v.level]) ++ [v.title]).map String.data)

/-- Lower-casing a whole string. -/
def lowerStr (s : Str) : Str := s.map jsToLower

/-- The case-insensitive substring filter step (`listFilter ? … : withScores`). -/
def filterStage (listFilter : String) (l : List Scored) : List Scored :=
  if listFilter.data.isEmpty then l
  else l.filter fun sv => strIncludes (lowerStr (filterKey sv.item)) (lowerStr listFilter.data)

/-- The sort comparator from `ranked`: ascending length, ascending level
(`localeCompare` modelled as code-point order), or descending score. -/
def cmpItems (mode : String) (a b : Scored) : Int :=
  if mode = "length" then ((a.item.lengthMin.getD 0 : Int)) - ((b.item.lengthMin.getD 0 : Int))
  else if mode = "level" then
    (if a.item.level.data < b.item.level.data then -1
     else if b.item.level.data < a.item.level.data then 1 else 0)
  else b.score - a.score

/-- `[...filtered].sort(cmp)`: `Array.prototype.sort` is required to be
stable, so it is modelled as the stable insertion sort for the non-strict
comparator order. -/
def jsSort (mode : String) (l : List Scored) : List Scored :=
  l.insertionSort fun a b => cmpItems mode a b ≤ 0

/-- The scored-and-filtered list, before sorting. -/
def preRank (query : String) (catalog : List Item) (cache : List (String × String))
    (listFilter : String) : List Scored :=
  let q := jsTrim query.data
  filterStage listFilter
    (catalog.map fun v => ⟨v, if q.isEmpty then 0 else keywordScore q v cache⟩)

/-- The `ranked` memo from `App.jsx`: score every item with the trimmed
query (0 when the trimmed query is empty), apply the text filter, then the
selected stable sort. -/
def ranked (query : String) (catalog : List Item) (cache : List (String × String))
    (listFilter : String) (listSort : String) : List Scored :=
  jsSort listSort (preRank query catalog cache listFilter)

/-- Item `a` of the end-to-end scenario. -/
def itemA : Item :=
  { id := "a", focuses := ["knees"], lengthMin := some 10,
    contraindications := ["acute knee pain"] }

/-- Item `b` of the end-to-end scenario. -/
def itemB : Item :=
  { id := "b", focuses := ["back"], lengthMin := some 10 }

/-- A tag-free item used to isolate the heuristic bonuses. -/
def itemPlain : Item := { id := "p" }

/-- The spec's description of the duration pattern, stated declaratively:
the query contains one or two digits, then optional whitespace, then the
literal `min`. -/
def specMinPattern (l : Str) : Prop :=
  ∃ pre ds ws suf : Str,
    l = pre ++ ds ++ ws ++ 'm' :: 'i' :: 'n' :: suf
    ∧ 1 ≤ ds.length ∧ ds.length ≤ 2
    ∧ (∀ c ∈ ds, isDigitChar c = true)
    ∧ (∀ c ∈ ws, isJsSpace c = true)

/-- The spec's triangular duration bonus, with the spec's own
`round(diff / 5)` expressed through rational rounding. -/
def specDurBonus (lengthMin want : Nat) : Int :=
  max 0 (4 - min 4 (round ((Nat.dist lengthMin want : ℚ) / 5)))

/-- The spec's count of distinct query tokens occurring in a transcript. -/
def distinctMatchCount (q : List Str) (t : String) : Nat :=
  ((q.filter fun tok => strIncludes t.data tok).dedup).length

/-! ### Character-class facts -/

theorem isJsSpace_space : isJsSpace ' ' = true := by decide

theorem isJsSpace_not_digit {c : Char} (h : isJsSpace c = true) : isDigitChar c = false := by
  simp only [isJsSpace, Bool.or_eq_true, beq_iff_eq] at h
  simp only [isDigitChar, Bool.and_eq_true, decide_eq_true_eq, Bool.and_eq_false_iff,
    decide_eq_false_iff_not]
  omega

theorem digit_isTokenChar {c : Char} (h : isDigitChar c = true) : isTokenChar c = true := by
  simp only [isDigitChar, Bool.and_eq_true, decide_eq_true_eq] at h
  simp only [isTokenChar, Bool.or_eq_true, Bool.and_eq_true, decide_eq_true_eq]
  omega

theorem tokenChar_not_space {c : Char} (h : isTokenChar c = true) : isJsSpace c = false := by
  simp only [isTokenChar, Bool.or_eq_true, Bool.and_eq_true, decide_eq_true_eq] at h
  simp only [isJsSpace, Bool.or_eq_false_iff, beq_eq_false_iff_ne, ne_eq]
  omega

theorem jsToLower_fix {c : Char} (h : isTokenChar c = true ∨ c = ' ') : jsToLower c = c := by
  rcases h with h | rfl
  · have h' : ¬(65 ≤ c.toNat ∧ c.toNat ≤ 90) := by
      simp only [isTokenChar, Bool.or_eq_true, Bool.and_eq_true, decide_eq_true_eq] at h
      omega
    simp [jsToLower, h']
  · decide

theorem jsToLower_digit {c : Char} (h : isDigitChar c = true) : jsToLower c = c :=
  jsToLower_fix (Or.inl (digit_isTokenChar h))

theorem replaceChar_fix {c : Char} (h : isTokenChar c = true ∨ c = ' ') : replaceChar c = c := by
  rcases h with h | rfl
  · simp [replaceChar, h]
  · decide

theorem replaceChar_class (c : Char) :
    isTokenChar (replaceChar c) = true ∨ isJsSpace (replaceChar c) = true := by
  by_cases h : (isTokenChar c || isJsSpace c) = true
  · rw [replaceChar, if_pos h]
    simpa using h
  · rw [replaceChar, if_neg h]
    exact Or.inr (by decide)

/-! ### `splitWs` and `joinSp` lemmas -/

theorem splitWs_nil : splitWs [] = [] := rfl

theorem splitWs_cons_space {c : Char} {cs : Str} (h : isJsSpace c = true) :
    splitWs (c :: cs) = splitWs cs := by
  simp [splitWs, splitWsAux, h]

theorem splitWsAux_build :
    ∀ (cs acc : Str), acc ≠ [] →
      splitWsAux cs acc =
        (acc.reverse ++ cs.takeWhile (fun x => !isJsSpace x)) ::
          splitWs (cs.dropWhile (fun x => !isJsSpace x)) := by
  intro cs
  induction cs with
  | nil =>
    intro acc hacc
    obtain ⟨a, as, rfl⟩ := List.exists_cons_of_ne_nil hacc
    simp [splitWsAux, splitWs]
  | cons d ds ih =>
    intro acc hacc
    obtain ⟨a, as, rfl⟩ := List.exists_cons_of_ne_nil hacc
    by_cases hd : isJsSpace d
    · have h1 : splitWsAux (d :: ds) (a :: as) = (a :: as).reverse :: splitWsAux ds [] := by
        simp [splitWsAux, hd]
      rw [h1]
      have h2 : (d :: ds).takeWhile (fun x => !isJsSpace x) = [] := by
        simp [List.takeWhile_cons, hd]
      have h3 : (d :: ds).dropWhile (fun x => !isJsSpace x) = d :: ds := by
        simp [List.dropWhile_cons, hd]
      rw [h2, h3, List.append_nil, splitWs_cons_space hd]
      rfl
    · have hd' : isJsSpace d = false := by simp [hd]
      have h1 : splitWsAux (d :: ds) (a :: as) = splitWsAux ds (d :: a :: as) := by
        simp [splitWsAux, hd']
      rw [h1, ih (d :: a :: as) (by simp)]
      have h2 : (d :: ds).takeWhile (fun x => !isJsSpace x) =
          d :: ds.takeWhile (fun x => !isJsSpace x) := by
        simp [List.takeWhile_cons, hd']
      have h3 : (d :: ds).dropWhile (fun x => !isJsSpace x) =
          ds.dropWhile (fun x => !isJsSpace x) := by
        simp [List.dropWhile_cons, hd']
      rw [h2, h3]
      simp

theorem splitWs_cons_tok {c : Char} {cs : Str} (h : isJsSpace c = false) :
    splitWs (c :: cs) =
      (c :: cs.takeWhile (fun x => !isJsSpace x)) ::
        splitWs (cs.dropWhile (fun x => !isJsSpace x)) := by
  show splitWsAux (c :: cs) [] = _
  have h1 : splitWsAux (c :: cs) [] = splitWsAux cs [c] := by
    simp [splitWsAux, h]
  rw [h1, splitWsAux_build cs [c] (by simp)]
  rfl

theorem mem_splitWsAux :
    ∀ (l acc t : Str), (∀ c ∈ acc, isJsSpace c = false) → t ∈ splitWsAux l acc →
      t ≠ [] ∧ ∀ c ∈ t, isJsSpace c = false ∧ (c ∈ acc ∨ c ∈ l) := by
  intro l
  induction l with
  | nil =>
    intro acc t hacc ht
    by_cases he : acc.isEmpty
    · simp [splitWsAux, he] at ht
    · simp only [splitWsAux, he, if_neg, Bool.false_eq_true, not_false_iff,
        List.mem_singleton] at ht
      subst ht
      refine ⟨by simpa using fun h => he (by simp [h]), fun c hc => ?_⟩
      rw [List.mem_reverse] at hc
      exact ⟨hacc c hc, Or.inl hc⟩
  | cons d ds ih =>
    intro acc t hacc ht
    by_cases hd : isJsSpace d
    · rw [show splitWsAux (d :: ds) acc =
          (if acc.isEmpty then splitWsAux ds [] else acc.reverse :: splitWsAux ds []) from by
        simp [splitWsAux, hd]] at ht
      by_cases he : acc.isEmpty
      · rw [if_pos he] at ht
        obtain ⟨hne, hch⟩ := ih [] t (by simp) ht
        exact ⟨hne, fun c hc => ⟨(hch c hc).1, Or.inr (List.mem_cons_of_mem d
          ((hch c hc).2.resolve_left (by simp)))⟩⟩
      · rw [if_neg he] at ht
        rcases List.mem_cons.mp ht with rfl | ht'
        · refine ⟨by simpa using fun h => he (by simp [h]), fun c hc => ?_⟩
          rw [List.mem_reverse] at hc
          exact ⟨hacc c hc, Or.inl hc⟩
        · obtain ⟨hne, hch⟩ := ih [] t (by simp) ht'
          exact ⟨hne, fun c hc => ⟨(hch c hc).1, Or.inr (List.mem_cons_of_mem d
            ((hch c hc).2.resolve_left (by simp)))⟩⟩
    · rw [show splitWsAux (d :: ds) acc = splitWsAux ds (d :: acc) from by
        simp [splitWsAux, hd]] at ht
      have hacc' : ∀ c ∈ d :: acc, isJsSpace c = false := by
        intro c hc
        rcases List.mem_cons.mp hc with rfl | hc'
        · simpa using hd
        · exact hacc c hc'
      obtain ⟨hne, hch⟩ := ih (d :: acc) t hacc' ht
      refine ⟨hne, fun c hc => ⟨(hch c hc).1, ?_⟩⟩
      rcases (hch c hc).2 with hmem | hmem
      · rcases List.mem_cons.mp hmem with rfl | h'
        · exact Or.inr (List.mem_cons_self c ds)
        · exact Or.inl h'
      · exact Or.inr (List.mem_cons_of_mem d hmem)

theorem mem_splitWs {l t : Str} (ht : t ∈ splitWs l) :
    t ≠ [] ∧ ∀ c ∈ t, isJsSpace c = false ∧ c ∈ l := by
  have h := mem_splitWsAux l [] t (by simp) ht
  exact ⟨h.1, fun c hc => ⟨(h.2 c hc).1, (h.2 c hc).2.resolve_left (by simp)⟩⟩

theorem joinSp_nil : joinSp [] = [] := rfl

theorem joinSp_single (t : Str) : joinSp [t] = t := rfl

theorem joinSp_cons₂ (t r : Str) (ts : List Str) :
    joinSp (t :: r :: ts) = t ++ ' ' :: joinSp (r :: ts) := rfl

theorem mem_joinSp : ∀ (ts : List Str) (c : Char), c ∈ joinSp ts →
    (∃ t ∈ ts, c ∈ t) ∨ c = ' '
  | [], c, hc => by simp [joinSp_nil] at hc
  | [t], c, hc => by
    rw [joinSp_single] at hc
    exact Or.inl ⟨t, List.mem_cons_self t [], hc⟩
  | t :: r :: ts', c, hc => by
    rw [joinSp_cons₂] at hc
    rcases List.mem_append.mp hc with hc' | hc'
    · exact Or.inl ⟨t, List.mem_cons_self t _, hc'⟩
    · rcases List.mem_cons.mp hc' with rfl | hc''
      · exact Or.inr rfl
      · rcases mem_joinSp (r :: ts') c hc'' with ⟨u, hu, hcu⟩ | rfl
        · exact Or.inl ⟨u, List.mem_cons_of_mem t hu, hcu⟩
        · exact Or.inr rfl

theorem takeWhile_append_of_all {p : Char → Bool} :
    ∀ (xs ys : Str), (∀ c ∈ xs, p c = true) → (xs ++ ys).takeWhile p = xs ++ ys.takeWhile p := by
  intro xs ys
  induction xs with
  | nil => intro; simp
  | cons x xs ih =>
    intro h
    have hx : p x = true := h x (List.mem_cons_self x xs)
    simp only [List.cons_append, List.takeWhile_cons, hx, if_pos]
    rw [ih (fun c hc => h c (List.mem_cons_of_mem x hc))]

theorem dropWhile_append_of_all {p : Char → Bool} :
    ∀ (xs ys : Str), (∀ c ∈ xs, p c = true) → (xs ++ ys).dropWhile p = ys.dropWhile p := by
  intro xs ys
  induction xs with
  | nil => intro; simp
  | cons x xs ih =>
    intro h
    have hx : p x = true := h x (List.mem_cons_self x xs)
    simp only [List.cons_append, List.dropWhile_cons, hx, if_pos]
    exact ih (fun c hc => h c (List.mem_cons_of_mem x hc))

theorem splitWs_joinSp :
    ∀ ts : List Str, (∀ t ∈ ts, t ≠ [] ∧ ∀ c ∈ t, isJsSpace c = false) →
      splitWs (joinSp ts) = ts := by
  intro ts
  induction ts with
  | nil => intro; simp [joinSp_nil, splitWs_nil]
  | cons t ts ih =>
    intro h
    obtain ⟨hne, hchar⟩ := h t (List.mem_cons_self t ts)
    obtain ⟨c, cs, rfl⟩ := List.exists_cons_of_ne_nil hne
    have hcs : ∀ x ∈ cs, (fun x => !isJsSpace x) x = true := by
      intro x hx
      simp [hchar x (List.mem_cons_of_mem c hx)]
    cases ts with
    | nil =>
      rw [joinSp_single, splitWs_cons_tok (hchar c (List.mem_cons_self c cs))]
      rw [List.takeWhile_eq_self_iff.mpr hcs, List.dropWhile_eq_nil_iff.mpr hcs, splitWs_nil]
    | cons r ts' =>
      rw [joinSp_cons₂]
      have hstep : (c :: cs) ++ ' ' :: joinSp (r :: ts') =
          c :: (cs ++ ' ' :: joinSp (r :: ts')) := rfl
      rw [hstep, splitWs_cons_tok (hchar c (List.mem_cons_self c cs))]
      rw [takeWhile_append_of_all cs _ hcs, dropWhile_append_of_all cs _ hcs]
      have hsp : (fun x => !isJsSpace x) ' ' = false := by decide
      rw [List.takeWhile_cons, List.dropWhile_cons]
      simp only [hsp, Bool.false_eq_true, if_false, List.append_nil]
      rw [splitWs_cons_space isJsSpace_space]
      rw [ih (fun u hu => h u (List.mem_cons_of_mem (c :: cs) hu))]

theorem tokenize_mem_chars {s : Str} {t : Str} (ht : t ∈ tokenize s) :
    t ≠ [] ∧ ∀ c ∈ t, isTokenChar c = true ∧ isJsSpace c = false := by
  obtain ⟨hne, hc⟩ := mem_splitWs ht
  refine ⟨hne, fun c hcc => ?_⟩
  obtain ⟨hsp, hmem⟩ := hc c hcc
  obtain ⟨c₀, _, rfl⟩ := List.mem_map.mp hmem
  rcases replaceChar_class c₀ with htok | hspc
  · exact ⟨htok, hsp⟩
  · rw [hspc] at hsp; cases hsp

/-- C8: `tokenize` is idempotent — tokenizing the space-join of `tokenize s`
yields exactly `tokenize s`, for every string `s`. -/
theorem c8_tokenize_idempotent (s : String) :
    tokenize (joinSp (tokenize s.data)) = tokenize s.data := by
  have hts : ∀ t ∈ tokenize s.data,
      t ≠ [] ∧ ∀ c ∈ t, isTokenChar c = true ∧ isJsSpace c = false :=
    fun t ht => tokenize_mem_chars ht
  have hjchar : ∀ c ∈ joinSp (tokenize s.data), isTokenChar c = true ∨ c = ' ' := by
    intro c hc
    rcases mem_joinSp _ c hc with ⟨t, ht, hct⟩ | rfl
    · exact Or.inl ((hts t ht).2 c hct).1
    · exact Or.inr rfl
  show splitWs (((joinSp (tokenize s.data)).map jsToLower).map replaceChar) = tokenize s.data
  have h2 : (joinSp (tokenize s.data)).map jsToLower = joinSp (tokenize s.data) :=
    calc (joinSp (tokenize s.data)).map jsToLower
        = (joinSp (tokenize s.data)).map id :=
          List.map_congr_left (fun a ha => jsToLower_fix (hjchar a ha))
      _ = joinSp (tokenize s.data) := List.map_id _
  have h3 : (joinSp (tokenize s.data)).map replaceChar = joinSp (tokenize s.data) :=
    calc (joinSp (tokenize s.data)).map replaceChar
        = (joinSp (tokenize s.data)).map id :=
          List.map_congr_left (fun a ha => replaceChar_fix (hjchar a ha))
      _ = joinSp (tokenize s.data) := List.map_id _
  rw [h2, h3]
  exact splitWs_joinSp _ (fun t ht => ⟨(hts t ht).1, fun c hc => ((hts t ht).2 c hc).2⟩)

/-! ### Rule-level bounds -/

theorem tagScore_nonneg (qT tags : List Str) (w : Nat) : 0 ≤ tagScore qT tags w := by
  refine List.sum_nonneg ?_
  intro x hx
  obtain ⟨tag, _, rfl⟩ := List.mem_map.mp hx
  exact mul_nonneg (Int.natCast_nonneg w) (Int.natCast_nonneg _)

theorem heurScore_nonneg (q : List Str) : 0 ≤ heurScore q := by
  unfold heurScore
  split_ifs <;> norm_num

theorem contraScore_cases (q : List Str) (contra : List String) :
    contraScore q contra = 0 ∨ contraScore q contra = -2 := by
  unfold contraScore
  split_ifs
  · exact Or.inr rfl
  · exact Or.inl rfl

theorem durationScore_nonneg (q : Str) (lengthMin : Option Nat) :
    0 ≤ durationScore q lengthMin := by
  unfold durationScore
  cases jsMatchMin q with
  | none => exact le_refl 0
  | some w => exact le_max_left 0 _

theorem quickScore_nonneg (q : List Str) (lengthMin : Option Nat) :
    0 ≤ quickScore q lengthMin := by
  unfold quickScore
  split_ifs
  · cases lengthMin with
    | none => exact le_refl 0
    | some l =>
      show (0 : Int) ≤ if l ≤ 10 then 2 else 0
      split_ifs <;> norm_num
  · exact le_refl 0

theorem transcriptScore_nonneg (q : List Str) (t? : Option String) :
    0 ≤ transcriptScore q t? := by
  cases t? with
  | none => exact le_refl 0
  | some t =>
    have hred : transcriptScore q (some t) =
        if t = "" then 0
        else ((min (q.dedup.countP fun tok => strIncludes t.data tok) 6 : Nat) : Int) := rfl
    rw [hred]
    split_ifs
    · exact le_refl 0
    · exact Int.natCast_nonneg _

/-- C9: the score never drops below −2 — the contraindication penalty is the
only subtractive rule, contributes either 0 or −2, and every other rule
contributes a non-negative amount. -/
theorem c9_score_lower_bound (q : Str) (v : Item) (cache : List (String × String)) :
    -2 ≤ keywordScore q v cache
    ∧ (contraScore (tokenize q) v.contraindications = 0
       ∨ contraScore (tokenize q) v.contraindications = -2)
    ∧ 0 ≤ tagScore (tokenize q) (v.focuses.map String.data) 3
    ∧ 0 ≤ heurScore (tokenize q)
    ∧ 0 ≤ durationScore q v.lengthMin
    ∧ 0 ≤ quickScore (tokenize q) v.lengthMin
    ∧ 0 ≤ transcriptScore (tokenize q) (cache.lookup v.id) := by
  have h1 := tagScore_nonneg (tokenize q) (v.focuses.map String.data) 3
  have h2 := tagScore_nonneg (tokenize q) (v.intents.map String.data) 2
  have h3 := tagScore_nonneg (tokenize q) (v.vibe.map String.data) 1
  have h4 := heurScore_nonneg (tokenize q)
  have h5 : -2 ≤ contraScore (tokenize q) v.contraindications := by
    rcases contraScore_cases (tokenize q) v.contraindications with h | h <;> omega
  have h6 := durationScore_nonneg q v.lengthMin
  have h7 := quickScore_nonneg (tokenize q) v.lengthMin
  have h8 := transcriptScore_nonneg (tokenize q) (cache.lookup v.id)
  refine ⟨?_, contraScore_cases _ _, h1, h4, h6, h7, h8⟩
  show -2 ≤ tagScore (tokenize q) (v.focuses.map String.data) 3
      + tagScore (tokenize q) (v.intents.map String.data) 2
      + tagScore (tokenize q) (v.vibe.map String.data) 1
      + heurScore (tokenize q)
      + contraScore (tokenize q) v.contraindications
      + durationScore q v.lengthMin
      + quickScore (tokenize q) v.lengthMin
      + transcriptScore (tokenize q) (cache.lookup v.id)
  linarith

/-! ### Category heuristics -/

theorem if_bool_prop {b : Bool} {P : Prop} [Decidable P] (hb : b = true ↔ P) (x y : Int) :
    (if b then x else y) = (if P then x else y) := by
  by_cases hp : P
  · rw [if_pos (hb.mpr hp), if_pos hp]
  · rw [if_neg (fun hbt => hp (hb.mp hbt)), if_neg hp]

theorem hasAny_iff (q ws : List Str) : hasAny q ws = true ↔ ∃ w ∈ ws, w ∈ q := by
  simp [hasAny, List.any_eq_true, List.elem_iff]

/-- C3: the category heuristics are whole-token tests on the query token
set (+4 travel or trip-and-back, +3 desk, +2 energy, +1 relax-or-stiff),
each bonus added at most once, independently; all four can stack, and a
substring like `desks` triggers nothing.  The query `flight back pain`
earns exactly the travel +4 on a tag-free item. -/
theorem c3_category_heuristics :
    (∀ q : List Str, heurScore q =
      (if (∃ w ∈ KW.travel, w ∈ q) ∨ ((("trip").data ∈ q) ∧ (("back").data ∈ q))
        then 4 else 0)
      + (if ∃ w ∈ KW.desk, w ∈ q then 3 else 0)
      + (if ∃ w ∈ KW.energy, w ∈ q then 2 else 0)
      + (if (∃ w ∈ KW.relax, w ∈ q) ∨ (∃ w ∈ KW.stiff, w ∈ q) then 1 else 0))
    ∧ heurScore (tokenize (("flight back pain").data)) = 4
    ∧ keywordScore (("flight back pain").data) itemPlain [] = 4
    ∧ heurScore (tokenize (("desks").data)) = 0
    ∧ heurScore (tokenize (("flight desk sweat stiff").data)) = 10 := by
  refine ⟨?_, by decide, by decide, by decide, by decide⟩
  intro q
  unfold heurScore
  have e1 : (hasAny q KW.travel
      || (q.contains (("trip").data) && q.contains (("back").data))) = true ↔
      (∃ w ∈ KW.travel, w ∈ q) ∨ ((("trip").data ∈ q) ∧ (("back").data ∈ q)) := by
    simp [hasAny, List.any_eq_true, List.elem_iff]
  have e2 : hasAny q KW.desk = true ↔ ∃ w ∈ KW.desk, w ∈ q := hasAny_iff q KW.desk
  have e3 : hasAny q KW.energy = true ↔ ∃ w ∈ KW.energy, w ∈ q := hasAny_iff q KW.energy
  have e4 : (hasAny q KW.relax || hasAny q KW.stiff) = true ↔
      (∃ w ∈ KW.relax, w ∈ q) ∨ (∃ w ∈ KW.stiff, w ∈ q) := by
    simp [hasAny, List.any_eq_true, List.elem_iff]
  rw [if_bool_prop e1 4 0, if_bool_prop e2 3 0, if_bool_prop e3 2 0, if_bool_prop e4 1 0]

/-! ### Transcript boosting -/

theorem dedup_countP_eq (p : Str → Bool) :
    ∀ l : List Str, l.dedup.countP p = ((l.filter p).dedup).length := by
  intro l
  induction l with
  | nil => simp
  | cons a l ih =>
    by_cases ha : a ∈ l
    · rw [List.dedup_cons_of_mem ha, List.filter_cons]
      by_cases hp : p a
      · simp only [hp, if_pos]
        rw [List.dedup_cons_of_mem (List.mem_filter.mpr ⟨ha, hp⟩)]
        exact ih
      · simp only [hp, Bool.false_eq_true, if_false]
        exact ih
    · rw [List.dedup_cons_of_not_mem ha, List.countP_cons, List.filter_cons]
      by_cases hp : p a
      · simp only [hp, if_pos]
        have ha' : a ∉ l.filter p := fun hmem => ha (List.mem_filter.mp hmem).1
        rw [List.dedup_cons_of_not_mem ha', List.length_cons, ih]
      · simp only [hp, Bool.false_eq_true, if_false]
        rw [ih]
        simp

/-- C4: the transcript rule contributes exactly
`min 6 (number of distinct query tokens occurring as substrings of the
transcript)` when an entry is cached, and exactly 0 when no entry exists —
in particular it contributes 0 for every item when no transcripts are
loaded. -/
theorem c4_transcript_rule (q : String) (t? : Option String) :
    transcriptScore (tokenize q.data) t? =
      (match t? with
       | some t => ((min 6 (distinctMatchCount (tokenize q.data) t) : Nat) : Int)
       | none => 0)
    ∧ ∀ v : Item,
        transcriptScore (tokenize q.data) (List.lookup v.id ([] : List (String × String))) = 0 := by
  constructor
  · cases t? with
    | none => rfl
    | some t =>
      show transcriptScore (tokenize q.data) (some t) =
        ((min 6 (distinctMatchCount (tokenize q.data) t) : Nat) : Int)
      have hred : transcriptScore (tokenize q.data) (some t) =
          if t = "" then 0
          else ((min ((tokenize q.data).dedup.countP fun tok => strIncludes t.data tok) 6
            : Nat) : Int) := rfl
      rw [hred]
      unfold distinctMatchCount
      by_cases ht : t = ""
      · subst ht
        rw [if_pos rfl]
        have hfil : (tokenize q.data).filter (fun tok => strIncludes (("").data) tok) = [] := by
          rw [List.filter_eq_nil_iff]
          intro tok htok
          have hne := (tokenize_mem_chars htok).1
          obtain ⟨c, cs, rfl⟩ := List.exists_cons_of_ne_nil hne
          simp [strIncludes]
        rw [hfil]
        rfl
      · rw [if_neg ht, dedup_countP_eq]
        rw [Nat.min_comm]
  · intro v
    rfl

/-! ### The duration regex -/

theorem restMin_iff (l : Str) :
    restMin l = true ↔
      ∃ ws suf : Str, l = ws ++ 'm' :: 'i' :: 'n' :: suf ∧ ∀ c ∈ ws, isJsSpace c = true := by
  constructor
  · intro h
    unfold restMin at h
    obtain ⟨suf, hsuf⟩ := List.isPrefixOf_iff_prefix.mp h
    refine ⟨l.takeWhile isJsSpace, suf, ?_, fun c hc => List.mem_takeWhile_imp hc⟩
    conv_lhs => rw [← List.takeWhile_append_dropWhile isJsSpace l]
    rw [← hsuf]
    rfl
  · rintro ⟨ws, suf, rfl, hws⟩
    unfold restMin
    rw [dropWhile_append_of_all ws _ hws]
    rw [List.dropWhile_cons]
    simp only [show isJsSpace 'm' = false from by decide, Bool.false_eq_true, if_false]
    exact List.isPrefixOf_iff_prefix.mpr ⟨suf, rfl⟩

theorem tryAt_some_pattern {l : Str} {w : Nat} (h : tryAt l = some w) :
    ∃ ds ws suf : Str, l = ds ++ ws ++ 'm' :: 'i' :: 'n' :: suf
      ∧ 1 ≤ ds.length ∧ ds.length ≤ 2
      ∧ (∀ c ∈ ds, isDigitChar c = true) ∧ (∀ c ∈ ws, isJsSpace c = true) := by
  cases l with
  | nil => exact absurd h (by simp [tryAt])
  | cons d1 rest1 =>
    by_cases h1 : isDigitChar d1 = true
    · cases rest1 with
      | nil =>
        rw [show tryAt [d1] = none from by
          simp [tryAt, h1, show restMin [] = false from by decide]] at h
        cases h
      | cons d2 rest2 =>
        by_cases h2 : isDigitChar d2 = true
        · by_cases h3 : restMin rest2 = true
          · obtain ⟨ws, suf, rfl, hws⟩ := (restMin_iff rest2).mp h3
            refine ⟨[d1, d2], ws, suf, by simp, by simp, by simp, ?_, hws⟩
            intro c hc
            rcases List.mem_cons.mp hc with rfl | hc'
            · exact h1
            · rcases List.mem_cons.mp hc' with rfl | hc''
              · exact h2
              · simp at hc''
          · by_cases h4 : restMin (d2 :: rest2) = true
            · obtain ⟨ws, suf, heq, hws⟩ := (restMin_iff _).mp h4
              refine ⟨[d1], ws, suf, by rw [heq]; rfl, by simp, by simp, ?_, hws⟩
              intro c hc
              rcases List.mem_cons.mp hc with rfl | hc'
              · exact h1
              · simp at hc'
            · rw [show tryAt (d1 :: d2 :: rest2) = none from by
                simp [tryAt, h1, h2, h3, h4]] at h
              cases h
        · by_cases h4 : restMin (d2 :: rest2) = true
          · obtain ⟨ws, suf, heq, hws⟩ := (restMin_iff _).mp h4
            refine ⟨[d1], ws, suf, by rw [heq]; rfl, by simp, by simp, ?_, hws⟩
            intro c hc
            rcases List.mem_cons.mp hc with rfl | hc'
            · exact h1
            · simp at hc'
          · rw [show tryAt (d1 :: d2 :: rest2) = none from by
              simp [tryAt, h1, h2, h4]] at h
            cases h
    · rw [show tryAt (d1 :: rest1) = none from by simp [tryAt, h1]] at h
      cases h

theorem tryAt_isSome_of_pattern (ds ws suf : Str) (hl1 : 1 ≤ ds.length) (hl2 : ds.length ≤ 2)
    (hds : ∀ c ∈ ds, isDigitChar c = true) (hws : ∀ c ∈ ws, isJsSpace c = true) :
    (tryAt (ds ++ ws ++ 'm' :: 'i' :: 'n' :: suf)).isSome = true := by
  have hrm : restMin (ws ++ 'm' :: 'i' :: 'n' :: suf) = true :=
    (restMin_iff _).mpr ⟨ws, suf, rfl, hws⟩
  cases ds with
  | nil => simp at hl1
  | cons d1 ds' =>
    cases ds' with
    | nil =>
      have hd : isDigitChar d1 = true := hds d1 (by simp)
      cases ws with
      | nil =>
        show (tryAt (d1 :: 'm' :: 'i' :: 'n' :: suf)).isSome = true
        have hm : isDigitChar 'm' = false := by decide
        simp only [tryAt, hd, if_pos, hm, Bool.false_eq_true, if_false]
        rw [if_pos (by simpa using hrm)]
        rfl
      | cons w ws' =>
        show (tryAt (d1 :: w :: (ws' ++ 'm' :: 'i' :: 'n' :: suf))).isSome = true
        have hw : isDigitChar w = false := isJsSpace_not_digit (hws w (by simp))
        simp only [tryAt, hd, if_pos, hw, Bool.false_eq_true, if_false]
        rw [if_pos (by simpa using hrm)]
        rfl
    | cons d2 ds'' =>
      cases ds'' with
      | nil =>
        have hd1 : isDigitChar d1 = true := hds d1 (by simp)
        have hd2 : isDigitChar d2 = true := hds d2 (by simp)
        show (tryAt (d1 :: d2 :: (ws ++ 'm' :: 'i' :: 'n' :: suf))).isSome = true
        simp only [tryAt, hd1, hd2, if_pos]
        rw [if_pos hrm]
        rfl
      | cons d3 ds''' => simp at hl2

theorem jsMatchMin_isSome_append :
    ∀ (pre rest : Str), (tryAt rest).isSome = true →
      (jsMatchMin (pre ++ rest)).isSome = true := by
  intro pre
  induction pre with
  | nil =>
    intro rest h
    cases rest with
    | nil => simp [tryAt] at h
    | cons c cs =>
      show (jsMatchMin (c :: cs)).isSome = true
      cases htry : tryAt (c :: cs) with
      | some w => simp [jsMatchMin, htry]
      | none => rw [htry] at h; simp at h
  | cons c pre' ih =>
    intro rest h
    show (jsMatchMin (c :: (pre' ++ rest))).isSome = true
    cases htry : tryAt (c :: (pre' ++ rest)) with
    | some w => simp [jsMatchMin, htry]
    | none =>
      rw [show jsMatchMin (c :: (pre' ++ rest)) = jsMatchMin (pre' ++ rest) from by
        simp [jsMatchMin, htry]]
      exact ih rest h

theorem jsMatchMin_some_pattern :
    ∀ l : Str, (jsMatchMin l).isSome = true → specMinPattern l := by
  intro l
  induction l with
  | nil => intro h; simp [jsMatchMin] at h
  | cons c cs ih =>
    intro h
    cases htry : tryAt (c :: cs) with
    | some w =>
      obtain ⟨ds, ws, suf, heq, hh⟩ := tryAt_some_pattern htry
      exact ⟨[], ds, ws, suf, by simpa using heq, hh⟩
    | none =>
      rw [show jsMatchMin (c :: cs) = jsMatchMin cs from by simp [jsMatchMin, htry]] at h
      obtain ⟨pre, ds, ws, suf, heq, hh⟩ := ih h
      exact ⟨c :: pre, ds, ws, suf, by rw [heq]; rfl, hh⟩

theorem jsMatchMin_isSome_iff (l : Str) :
    (∃ w, jsMatchMin l = some w) ↔ specMinPattern l := by
  constructor
  · rintro ⟨w, hw⟩
    exact jsMatchMin_some_pattern l (by simp [hw])
  · rintro ⟨pre, ds, ws, suf, rfl, hl1, hl2, hds, hws⟩
    have h := tryAt_isSome_of_pattern ds ws suf hl1 hl2 hds hws
    have h2 := jsMatchMin_isSome_append pre _ h
    have h3 : (jsMatchMin (pre ++ ds ++ ws ++ 'm' :: 'i' :: 'n' :: suf)).isSome = true := by
      simpa [List.append_assoc] using h2
    exact Option.isSome_iff_exists.mp h3

theorem round_div5_eq (d : Nat) :
    round ((d : ℚ) / 5) = ((roundHalfUpDiv5 d : Nat) : Int) := by
  rw [round_eq]
  have h5 : ((d : ℚ) / 5 + 1 / 2) = ((2 * d + 5 : Nat) : ℚ) / 10 := by push_cast; ring
  rw [h5]
  have hb := Nat.div_add_mod (2 * d + 5) 10
  have hm : (2 * d + 5) % 10 < 10 := Nat.mod_lt _ (by norm_num)
  apply Int.floor_eq_iff.mpr
  constructor
  · rw [le_div_iff₀ (by norm_num : (0 : ℚ) < 10)]
    have : (roundHalfUpDiv5 d) * 10 ≤ 2 * d + 5 := by unfold roundHalfUpDiv5; omega
    exact_mod_cast this
  · rw [div_lt_iff₀ (by norm_num : (0 : ℚ) < 10)]
    have : 2 * d + 5 < (roundHalfUpDiv5 d + 1) * 10 := by unfold roundHalfUpDiv5; omega
    exact_mod_cast this

theorem durationScore_eq_spec (q : Str) (len : Option Nat) :
    durationScore q len =
      (match jsMatchMin q with
       | some want => specDurBonus (len.getD 0) want
       | none => 0) := by
  unfold durationScore specDurBonus
  cases jsMatchMin q with
  | none => rfl
  | some w =>
    show max 0 (4 - min 4 ((roundHalfUpDiv5 (Nat.dist (len.getD 0) w) : Int)))
       = max 0 (4 - min 4 (round ((Nat.dist (len.getD 0) w : ℚ) / 5)))
    rw [round_div5_eq]

/-- C2: the duration rule fires exactly when the query contains one or two
digits, then optional whitespace, then the literal `min`; it then adds
exactly `max 0 (4 − min 4 (round (|lengthMin − requested| / 5)))` with a
missing `lengthMin` counting as 0, and contributes exactly 0 (never an
error — the function is total) when the pattern is absent. -/
theorem c2_duration_rule (s : String) (len : Option Nat) :
    (specMinPattern s.data ↔ ∃ w, jsMatchMin s.data = some w)
    ∧ durationScore s.data len =
        (match jsMatchMin s.data with
         | some want => specDurBonus (len.getD 0) want
         | none => 0) :=
  ⟨(jsMatchMin_isSome_iff s.data).symm, durationScore_eq_spec s.data len⟩

/-! ### Stable sorting -/

theorem cmpItems_score (a b : Scored) : cmpItems "score" a b = b.score - a.score := rfl

theorem filter_orderedInsert_pos {r : Scored → Scored → Prop} [DecidableRel r]
    (p : Scored → Bool) (x : Scored) (hx : p x = true) :
    ∀ l : List Scored, (∀ y ∈ l, p y = true → r x y) →
      (l.orderedInsert r x).filter p = x :: l.filter p := by
  intro l
  induction l with
  | nil => intro; simp [List.orderedInsert, hx]
  | cons b bs ih =>
    intro hall
    by_cases hrb : r x b
    · simp only [List.orderedInsert, if_pos hrb]
      simp [List.filter_cons, hx]
    · have hpb : p b = false := by
        by_contra hc
        exact hrb (hall b (List.mem_cons_self b bs) (by simpa using hc))
      simp only [List.orderedInsert, if_neg hrb]
      rw [List.filter_cons, List.filter_cons]
      simp only [hpb, Bool.false_eq_true, if_false]
      exact ih (fun y hy hpy => hall y (List.mem_cons_of_mem b hy) hpy)

theorem filter_orderedInsert_neg {r : Scored → Scored → Prop} [DecidableRel r]
    (p : Scored → Bool) (x : Scored) (hx : p x = false) :
    ∀ l : List Scored, (l.orderedInsert r x).filter p = l.filter p := by
  intro l
  induction l with
  | nil => simp [List.orderedInsert, hx]
  | cons b bs ih =>
    by_cases hrb : r x b
    · simp only [List.orderedInsert, if_pos hrb]
      rw [List.filter_cons, List.filter_cons]
      simp only [hx, Bool.false_eq_true, if_false]
    · simp only [List.orderedInsert, if_neg hrb]
      rw [List.filter_cons, List.filter_cons]
      rw [ih]

theorem filter_insertionSort {r : Scored → Scored → Prop} [DecidableRel r]
    (p : Scored → Bool) (hp : ∀ x y, p x = true → p y = true → r x y) :
    ∀ l : List Scored, (l.insertionSort r).filter p = l.filter p := by
  intro l
  induction l with
  | nil => rfl
  | cons a l ih =>
    show ((l.insertionSort r).orderedInsert r a).filter p = (a :: l).filter p
    by_cases hpa : p a
    · rw [filter_orderedInsert_pos p a hpa _
        (fun y hy hpy => hp a y hpa hpy)]
      rw [ih, List.filter_cons]
      simp [hpa]
    · rw [filter_orderedInsert_neg p a (by simpa using hpa)]
      rw [ih, List.filter_cons]
      simp [hpa]

/-- C5: with `sortMode = "score"` the ranking is sorted by descending score,
is a permutation of the scored-and-filtered input, and is stable — for any
score value, the sub-list of items carrying that score equals the
corresponding sub-list before sorting, which is in input-catalog order. -/
theorem c5_score_sort_stable (query : String) (catalog : List Item)
    (cache : List (String × String)) (fl : String) :
    List.Pairwise (fun a b : Scored => b.score ≤ a.score)
        (ranked query catalog cache fl "score")
    ∧ (∀ s : Int, (ranked query catalog cache fl "score").filter (fun x => x.score == s)
        = (preRank query catalog cache fl).filter (fun x => x.score == s))
    ∧ List.Perm (ranked query catalog cache fl "score") (preRank query catalog cache fl) := by
  haveI htot : IsTotal Scored (fun a b => cmpItems "score" a b ≤ 0) := by
    constructor
    intro a b
    rw [cmpItems_score, cmpItems_score]
    omega
  haveI htrans : IsTrans Scored (fun a b => cmpItems "score" a b ≤ 0) := by
    constructor
    intro a b c hab hbc
    rw [cmpItems_score] at *
    omega
  refine ⟨?_, ?_, ?_⟩
  · have hs := List.sorted_insertionSort (fun a b => cmpItems "score" a b ≤ 0)
      (preRank query catalog cache fl)
    exact hs.imp (fun hab => by rw [cmpItems_score] at hab; omega)
  · intro s
    exact filter_insertionSort (fun x => x.score == s)
      (fun x y hx hy => by
        rw [cmpItems_score]
        rw [beq_iff_eq] at hx hy
        omega)
      (preRank query catalog cache fl)
  · exact List.perm_insertionSort _ _

/-! ### Empty-query degeneration -/

theorem splitWs_eq_nil : ∀ m : Str, splitWs m = [] → ∀ c ∈ m, isJsSpace c = true := by
  intro m
  induction m with
  | nil => simp
  | cons d ds ih =>
    intro h c hc
    by_cases hd : isJsSpace d = true
    · rw [splitWs_cons_space hd] at h
      rcases List.mem_cons.mp hc with rfl | hc'
      · exact hd
      · exact ih h c hc'
    · rw [splitWs_cons_tok (by simpa using hd)] at h
      cases h

theorem tokenize_nil_no_digit {q : Str} (h : tokenize q = []) :
    ∀ c ∈ q, isDigitChar c = false := by
  intro c hc
  by_contra hcon
  have hd : isDigitChar c = true := by simpa using hcon
  have hlc : jsToLower c = c := jsToLower_digit hd
  have hrc : replaceChar c = c := replaceChar_fix (Or.inl (digit_isTokenChar hd))
  have hmem : c ∈ (q.map jsToLower).map replaceChar :=
    List.mem_map.mpr ⟨jsToLower c, List.mem_map.mpr ⟨c, hc, rfl⟩, by rw [hlc, hrc]⟩
  have hall := splitWs_eq_nil _ h c hmem
  have hns : isJsSpace c = false := tokenChar_not_space (digit_isTokenChar hd)
  rw [hall] at hns
  cases hns

theorem noDigit_jsMatchMin_none : ∀ l : Str, (∀ c ∈ l, isDigitChar c = false) →
    jsMatchMin l = none := by
  intro l
  induction l with
  | nil => intro; rfl
  | cons c cs ih =>
    intro h
    have hc : isDigitChar c = false := h c (List.mem_cons_self c cs)
    have htry : tryAt (c :: cs) = none := by simp [tryAt, hc]
    rw [show jsMatchMin (c :: cs) = jsMatchMin cs from by simp [jsMatchMin, htry]]
    exact ih (fun d hd => h d (List.mem_cons_of_mem c hd))

theorem hasAny_nil (ws : List Str) : hasAny [] ws = false := by
  rw [hasAny, List.any_eq_false]
  intro w _
  simp [List.elem_iff]

theorem tagScore_nil (tags : List Str) (w : Nat) : tagScore [] tags w = 0 := by
  unfold tagScore
  apply List.sum_eq_zero
  intro x hx
  obtain ⟨tag, _, rfl⟩ := List.mem_map.mp hx
  have hz : ((tokenize tag).countP fun t => List.contains [] t) = 0 := by
    rw [List.countP_eq_zero]
    intro a _
    simp [List.elem_iff]
  rw [hz]
  simp

theorem keywordScore_empty_tokens {q : Str} (h : tokenize q = []) (v : Item)
    (cache : List (String × String)) : keywordScore q v cache = 0 := by
  show tagScore (tokenize q) (v.focuses.map String.data) 3
      + tagScore (tokenize q) (v.intents.map String.data) 2
      + tagScore (tokenize q) (v.vibe.map String.data) 1
      + heurScore (tokenize q)
      + contraScore (tokenize q) v.contraindications
      + durationScore q v.lengthMin
      + quickScore (tokenize q) v.lengthMin
      + transcriptScore (tokenize q) (cache.lookup v.id) = 0
  rw [h]
  have hheur : heurScore [] = 0 := by decide
  have hcontra : contraScore [] v.contraindications = 0 := by
    unfold contraScore
    rw [hasAny_nil]
    rfl
  have hdur : durationScore q v.lengthMin = 0 := by
    unfold durationScore
    rw [noDigit_jsMatchMin_none q (tokenize_nil_no_digit h)]
  have hquick : quickScore [] v.lengthMin = 0 := by
    unfold quickScore
    rw [show (List.contains [] (("quick").data) || List.contains [] (("short").data)) = false
      from rfl]
    rfl
  have htr : transcriptScore [] (cache.lookup v.id) = 0 := by
    cases cache.lookup v.id with
    | none => rfl
    | some t =>
      show (if t = "" then 0
        else ((min (([] : List Str).dedup.countP fun tok => strIncludes t.data tok) 6
          : Nat) : Int)) = 0
      split_ifs <;> rfl
  rw [tagScore_nil, tagScore_nil, tagScore_nil, hheur, hcontra, hdur, hquick, htr]
  rfl

theorem mem_filterStage {fl : String} {l : List Scored} {x : Scored}
    (h : x ∈ filterStage fl l) : x ∈ l := by
  unfold filterStage at h
  split_ifs at h
  · exact h
  · exact List.mem_of_mem_filter h

/-- C6: when the trimmed query is empty every item's score is 0 and the
ranking is the catalog order modulated only by the filter and sort stages;
independently, whenever the query token set is empty the scoring function
returns 0 for every item. -/
theorem c6_empty_query :
    (∀ (query : String) (catalog : List Item) (cache : List (String × String))
        (fl mode : String), jsTrim query.data = [] →
      ranked query catalog cache fl mode =
          jsSort mode (filterStage fl (catalog.map fun v => ⟨v, 0⟩))
        ∧ ∀ x ∈ ranked query catalog cache fl mode, x.score = 0)
    ∧ (∀ (q : Str) (v : Item) (cache : List (String × String)),
        tokenize q = [] → keywordScore q v cache = 0) := by
  constructor
  · intro query catalog cache fl mode h
    have hpre : preRank query catalog cache fl = filterStage fl (catalog.map fun v => ⟨v, 0⟩) := by
      unfold preRank
      rw [h]
      rfl
    constructor
    · show jsSort mode (preRank query catalog cache fl) = _
      rw [hpre]
    · intro x hx
      have hx1 : x ∈ preRank query catalog cache fl := by
        have : x ∈ (preRank query catalog cache fl).insertionSort
            (fun a b => cmpItems mode a b ≤ 0) := hx
        exact (List.mem_insertionSort _).mp this
      rw [hpre] at hx1
      have hx2 := mem_filterStage hx1
      obtain ⟨v, _, rfl⟩ := List.mem_map.mp hx2
      rfl
  · intro q v cache h
    exact keywordScore_empty_tokens h v cache

/-- Witness for C6 at a whitespace-only query and a token-free query. -/
theorem c6_empty_query_witness :
    (ranked " " [itemA] [] "" "score" =
        jsSort "score" (filterStage "" ([itemA].map fun v => ⟨v, 0⟩))
      ∧ ∀ x ∈ ranked " " [itemA] [] "" "score", x.score = 0)
    ∧ keywordScore (("!?").data) itemA [] = 0 :=
  ⟨c6_empty_query.1 " " [itemA] [] "" "score" (by decide),
   c6_empty_query.2 (("!?").data) itemA [] (by decide)⟩

/-! ### Purity of scoring and ranking -/

/-- C7: scoring reads the transcript cache only through the item's own
entry, and in a ranking every output score is exactly the score of
(query, that item, cache) — no dependence on other catalog items; both
functions are Lean functions, hence deterministic in their inputs. -/
theorem c7_purity :
    (∀ (q : Str) (v : Item) (c₁ c₂ : List (String × String)),
        c₁.lookup v.id = c₂.lookup v.id → keywordScore q v c₁ = keywordScore q v c₂)
    ∧ (∀ (query : String) (catalog : List Item) (cache : List (String × String))
        (fl mode : String) (x : Scored), x ∈ ranked query catalog cache fl mode →
        x.score = if (jsTrim query.data).isEmpty then 0
          else keywordScore (jsTrim query.data) x.item cache) := by
  constructor
  · intro q v c₁ c₂ h
    show tagScore (tokenize q) (v.focuses.map String.data) 3
        + tagScore (tokenize q) (v.intents.map String.data) 2
        + tagScore (tokenize q) (v.vibe.map String.data) 1
        + heurScore (tokenize q)
        + contraScore (tokenize q) v.contraindications
        + durationScore q v.lengthMin
        + quickScore (tokenize q) v.lengthMin
        + transcriptScore (tokenize q) (c₁.lookup v.id) = _
    rw [h]
    rfl
  · intro query catalog cache fl mode x hx
    have hx1 : x ∈ preRank query catalog cache fl := by
      have : x ∈ (preRank query catalog cache fl).insertionSort
          (fun a b => cmpItems mode a b ≤ 0) := hx
      exact (List.mem_insertionSort _).mp this
    have hx2 := mem_filterStage hx1
    obtain ⟨v, _, rfl⟩ := List.mem_map.mp hx2
    by_cases hq : (jsTrim query.data).isEmpty
    · simp only [hq, if_true, if_pos]
    · simp only [hq, Bool.false_eq_true, if_false, if_neg]

/-- Witness for C7: equal cache entries at a concrete query and item, and a
concrete ranking membership. -/
theorem c7_purity_witness :
    keywordScore (("hi").data) itemA [("zz", "t")] = keywordScore (("hi").data) itemA []
    ∧ (⟨itemPlain, 4⟩ : Scored).score =
        (if (jsTrim (("flight").data)).isEmpty then 0
         else keywordScore (jsTrim (("flight").data)) (⟨itemPlain, 4⟩ : Scored).item []) :=
  ⟨c7_purity.1 (("hi").data) itemA [("zz", "t")] [] (by decide),
   c7_purity.2 "flight" [itemPlain] [] "" "score" ⟨itemPlain, 4⟩ (by decide)⟩

/-! ### The end-to-end scenario -/

/-- C1 counterexample: on the spec's two-item catalog with query
`knee pain 10 min`, item `a` scores 2 — not 5, because the focus tag
`knees` tokenizes to the token `knees`, which is not the query token
`knee` — and the ranked order is `[b, a]`, not `[a, b]`. -/
theorem c1_scenario_counterexample :
    keywordScore (("knee pain 10 min").data) itemA [] = 2
    ∧ ¬ keywordScore (("knee pain 10 min").data) itemA [] = 5
    ∧ (ranked "knee pain 10 min" [itemA, itemB] [] "" "score").map (fun x => x.item.id)
        = ["b", "a"]
    ∧ ¬ (ranked "knee pain 10 min" [itemA, itemB] [] "" "score").map (fun x => x.item.id)
        = ["a", "b"] :=
  ⟨by decide, by decide, by decide, by decide⟩

/-- C1 amended: item `a` earns no focus match (tag token `knees` is not the
query token `knee`), keeps −2 contraindication and +4 exact duration for a
total of 2; item `b` scores 0 + 4 = 4; the ranking is `[b, a]`. -/
theorem c1_scenario_amended :
    keywordScore (("knee pain 10 min").data) itemA [] = 2
    ∧ keywordScore (("knee pain 10 min").data) itemB [] = 4
    ∧ tagScore (tokenize (("knee pain 10 min").data)) (itemA.focuses.map String.data) 3 = 0
    ∧ contraScore (tokenize (("knee pain 10 min").data)) itemA.contraindications = -2
    ∧ durationScore (("knee pain 10 min").data) itemA.lengthMin = 4
    ∧ (ranked "knee pain 10 min" [itemA, itemB] [] "" "score").map (fun x => x.item.id)
        = ["b", "a"] :=
  ⟨by decide, by decide, by decide, by decide, by decide, by decide⟩

/-! ### Missing `lengthMin` asymmetry -/

/-- C10: with `lengthMin` absent the quick/short rule never adds its +2
(the JS comparison `undefined <= 10` is false), while the duration rule
substitutes 0 and can still award its bonus — e.g. query `2 min` earns 4
on an item with no `lengthMin`. -/
theorem c10_lengthMin_asymmetry :
    (∀ q : List Str, quickScore q none = 0)
    ∧ (∀ q : Str, durationScore q none = durationScore q (some 0))
    ∧ durationScore (("2 min").data) none = 4
    ∧ quickScore (tokenize (("quick").data)) (some 10) = 2
    ∧ keywordScore (("quick session").data) { id := "q" } [] = 0
    ∧ keywordScore (("quick session").data) { id := "q", lengthMin := some 5 } [] = 2 := by
  refine ⟨?_, ?_, by decide, by decide, by decide, by decide⟩
  · intro q
    unfold quickScore
    split_ifs <;> rfl
  · intro q
    rfl
